import Mathlib

/-!
Verification of the step-runner core (`ETLPipeline` in `etl_pipeline.py`).

The embedding is a direct translation of the Python source:

* `StepResult` mirrors the `StepResult` dataclass; timestamps are modelled
  as natural numbers produced by a clock `clock : Nat → Nat` sampled at an
  increasing tick counter (each `datetime.utcnow()` call consumes one tick).
* a step operation (`Callable[[], str]` closing over external effects) is
  modelled as a state transformer `σ → Except ε String × σ` on an abstract
  world `σ`: it either returns a status string or raises an error of
  type `ε`; `str : ε → String` models Python's `str(e)`.
* `run_pipeline` follows the source loop: per step it samples `started_at`,
  invokes the operation, samples `finished_at`, appends a `StepResult`
  (ok on success, `str e` on failure) to the local `results` list, and on
  failure re-raises the original error after recording the outcome.
  `runFrom` is the loop body; `run_pipeline` packages what the caller
  observes: the normal return value or the propagated error, the receiver
  after the call, and the final tick and world.
-/

namespace SnowflakeETL

/-- Mirrors the `StepResult` dataclass: name, ok flag, message and the
two timestamps recorded around the operation call. -/
structure StepResult where
  name : String
  ok : Bool
  message : String
  started_at : Nat
  finished_at : Nat
deriving DecidableEq, Repr

/-- One registered pipeline step: a `(name, fn)` pair as stored in
`self.pipeline_steps`; `fn` is a zero-argument callable modelled as a
world-state transformer that returns a status string or raises `ε`. -/
abbrev PStep (σ ε : Type) := String × (σ → Except ε String × σ)

/-- Mirrors the `ETLPipeline` class state: the `name` label and the
ordered list `pipeline_steps`. -/
structure ETLPipeline (σ ε : Type) where
  name : String
  pipeline_steps : List (PStep σ ε)

/-- Mirrors `add_steps_to_pipeline`: appends one `(name, fn)` pair to
`self.pipeline_steps`. -/
def add_steps_to_pipeline (p : ETLPipeline σ ε) (name : String)
    (fn : σ → Except ε String × σ) : ETLPipeline σ ε :=
  { p with pipeline_steps := p.pipeline_steps ++ [(name, fn)] }

/-- State of one execution of the `for` loop of `run_pipeline`:
the accumulated local `results` list, the error being propagated by the
bare `raise` (if any), and the tick counter and world after the run. -/
structure RunState (σ ε : Type) where
  results : List StepResult
  raised : Option ε
  tick : Nat
  world : σ
deriving DecidableEq

/-- Mirrors the `for name, fn in self.pipeline_steps` loop of
`run_pipeline`: per step it samples `started_at`, invokes `fn`, samples
`finished_at`, appends a `StepResult` to the local `results` list; on an
exception it records the failed outcome (message `str e`) and stops,
propagating the original error. -/
def runFrom (str : ε → String) (clock : Nat → Nat) :
    List (PStep σ ε) → Nat → σ → RunState σ ε
  | [], k, s => ⟨[], none, k, s⟩
  | (name, fn) :: rest, k, s =>
    let started_at := clock k
    match fn s with
    | (Except.ok message, s1) =>
      let finished_at := clock (k + 1)
      let r := runFrom str clock rest (k + 2) s1
      ⟨⟨name, true, message, started_at, finished_at⟩ :: r.results,
        r.raised, r.tick, r.world⟩
    | (Except.error e, s1) =>
      let finished_at := clock (k + 1)
      ⟨[⟨name, false, str e, started_at, finished_at⟩], some e, k + 2, s1⟩

/-- The partial report `run_pipeline` has recorded when it returns or
raises: the contents of the local `results` list. On the failure path this
list is recorded before the `raise` but is a local of the method. -/
def recordedReport (str : ε → String) (clock : Nat → Nat)
    (p : ETLPipeline σ ε) (k : Nat) (s : σ) : List StepResult :=
  (runFrom str clock p.pipeline_steps k s).results

/-- Mirrors `run_pipeline` as the caller observes it: on a clean run the
method returns the `results` list; when a step raises, the original
exception propagates (bare `raise`) and the local `results` list does not
reach the caller. The second component is the receiver after the call
(the method never assigns to `self`), then the final tick and world. -/
def run_pipeline (str : ε → String) (clock : Nat → Nat)
    (p : ETLPipeline σ ε) (k : Nat) (s : σ) :
    Except ε (List StepResult) × ETLPipeline σ ε × Nat × σ :=
  let r := runFrom str clock p.pipeline_steps k s
  match r.raised with
  | some e => (Except.error e, p, r.tick, r.world)
  | none => (Except.ok r.results, p, r.tick, r.world)

/-- Projection of a report that forgets the two timestamps of each entry,
used to compare reports "apart from timestamps". -/
def stripTimes (l : List StepResult) : List (String × Bool × String) :=
  l.map fun r => (r.name, r.ok, r.message)

/-- Identity stringification: when errors are modelled as their own
message strings, Python's `str(e)` is the identity. -/
def idStr : String → String := fun e => e

/-- Identity clock: tick `t` happens at time `t`. -/
def idClock : Nat → Nat := fun t => t

/-- Concrete effect-free operation that returns the status string `m`. -/
def opOk (m : String) : Unit → Except String String × Unit :=
  fun u => (Except.ok m, u)

/-- Concrete effect-free operation that raises the error `e`. -/
def opFail (e : String) : Unit → Except String String × Unit :=
  fun u => (Except.error e, u)

/-- Concrete all-success pipeline with two steps. -/
def demoSuccess : ETLPipeline Unit String :=
  ⟨"daily_customer_export", [("a", opOk "ok-a"), ("b", opOk "ok-b")]⟩

/-- Concrete pipeline matching the spec scenario: step `a` succeeds,
step `b` raises "boom", step `c` would succeed but is after the failure. -/
def demoFail : ETLPipeline Unit String :=
  ⟨"daily_customer_export",
    [("a", opOk "ok-a"), ("b", opFail "boom"), ("c", opOk "ok-c")]⟩

/-- Concrete pipeline whose first step raises "boom". -/
def demoFailShort : ETLPipeline Unit String :=
  ⟨"daily_customer_export", [("b", opFail "boom")]⟩

theorem runFrom_nil (str : ε → String) (clock : Nat → Nat) (k : Nat) (s : σ) :
    runFrom str clock ([] : List (PStep σ ε)) k s = ⟨[], none, k, s⟩ := rfl

theorem runFrom_cons_ok (str : ε → String) (clock : Nat → Nat)
    {fn : σ → Except ε String × σ} {s s1 : σ} {m : String}
    (n : String) (rest : List (PStep σ ε)) (k : Nat)
    (h : fn s = (Except.ok m, s1)) :
    runFrom str clock ((n, fn) :: rest) k s =
      ⟨⟨n, true, m, clock k, clock (k + 1)⟩ ::
          (runFrom str clock rest (k + 2) s1).results,
        (runFrom str clock rest (k + 2) s1).raised,
        (runFrom str clock rest (k + 2) s1).tick,
        (runFrom str clock rest (k + 2) s1).world⟩ := by
  simp only [runFrom, h]

theorem runFrom_cons_err (str : ε → String) (clock : Nat → Nat)
    {fn : σ → Except ε String × σ} {s s1 : σ} {e : ε}
    (n : String) (rest : List (PStep σ ε)) (k : Nat)
    (h : fn s = (Except.error e, s1)) :
    runFrom str clock ((n, fn) :: rest) k s =
      ⟨[⟨n, false, str e, clock k, clock (k + 1)⟩], some e, k + 2, s1⟩ := by
  simp only [runFrom, h]

theorem runFrom_append_clean (str : ε → String) (clock : Nat → Nat)
    (pre rest : List (PStep σ ε)) (k : Nat) (s : σ)
    (h : (runFrom str clock pre k s).raised = none) :
    runFrom str clock (pre ++ rest) k s =
      ⟨(runFrom str clock pre k s).results ++
          (runFrom str clock rest (runFrom str clock pre k s).tick
            (runFrom str clock pre k s).world).results,
        (runFrom str clock rest (runFrom str clock pre k s).tick
          (runFrom str clock pre k s).world).raised,
        (runFrom str clock rest (runFrom str clock pre k s).tick
          (runFrom str clock pre k s).world).tick,
        (runFrom str clock rest (runFrom str clock pre k s).tick
          (runFrom str clock pre k s).world).world⟩ := by
  induction pre generalizing k s with
  | nil => simp [runFrom_nil]
  | cons hd tl ih =>
    obtain ⟨n, fn⟩ := hd
    rcases hfn : fn s with ⟨res, s1⟩
    cases res with
    | ok m =>
      rw [runFrom_cons_ok str clock n tl k hfn] at h ⊢
      rw [List.cons_append, runFrom_cons_ok str clock n (tl ++ rest) k hfn]
      simp only at h
      rw [ih (k + 2) s1 h]
      simp
    | error e =>
      rw [runFrom_cons_err str clock n tl k hfn] at h
      simp at h

theorem runFrom_clean_map_name (str : ε → String) (clock : Nat → Nat)
    (steps : List (PStep σ ε)) (k : Nat) (s : σ)
    (h : (runFrom str clock steps k s).raised = none) :
    (runFrom str clock steps k s).results.map StepResult.name =
      steps.map Prod.fst := by
  induction steps generalizing k s with
  | nil => simp [runFrom_nil]
  | cons hd tl ih =>
    obtain ⟨n, fn⟩ := hd
    rcases hfn : fn s with ⟨res, s1⟩
    cases res with
    | ok m =>
      rw [runFrom_cons_ok str clock n tl k hfn] at h ⊢
      simp only at h
      simp [ih (k + 2) s1 h]
    | error e =>
      rw [runFrom_cons_err str clock n tl k hfn] at h
      simp at h

theorem runFrom_clean_all_ok (str : ε → String) (clock : Nat → Nat)
    (steps : List (PStep σ ε)) (k : Nat) (s : σ)
    (h : (runFrom str clock steps k s).raised = none) :
    ∀ r ∈ (runFrom str clock steps k s).results, r.ok = true := by
  induction steps generalizing k s with
  | nil => simp [runFrom_nil]
  | cons hd tl ih =>
    obtain ⟨n, fn⟩ := hd
    rcases hfn : fn s with ⟨res, s1⟩
    cases res with
    | ok m =>
      rw [runFrom_cons_ok str clock n tl k hfn] at h ⊢
      simp only at h
      intro r hr
      rcases List.mem_cons.mp hr with h1 | h1
      · rw [h1]
      · exact ih (k + 2) s1 h r h1
    | error e =>
      rw [runFrom_cons_err str clock n tl k hfn] at h
      simp at h

theorem runFrom_timestamps (str : ε → String) (clock : Nat → Nat)
    (steps : List (PStep σ ε)) (k : Nat) (s : σ) :
    ∀ r ∈ (runFrom str clock steps k s).results,
      ∃ j, r.started_at = clock j ∧ r.finished_at = clock (j + 1) := by
  induction steps generalizing k s with
  | nil => simp [runFrom_nil]
  | cons hd tl ih =>
    obtain ⟨n, fn⟩ := hd
    rcases hfn : fn s with ⟨res, s1⟩
    cases res with
    | ok m =>
      rw [runFrom_cons_ok str clock n tl k hfn]
      intro r hr
      rcases List.mem_cons.mp hr with h1 | h1
      · exact ⟨k, by rw [h1], by rw [h1]⟩
      · exact ih (k + 2) s1 r h1
    | error e =>
      rw [runFrom_cons_err str clock n tl k hfn]
      intro r hr
      rcases List.mem_cons.mp hr with h1 | h1
      · exact ⟨k, by rw [h1], by rw [h1]⟩
      · simp at h1

theorem runFrom_map_name_take (str : ε → String) (clock : Nat → Nat)
    (steps : List (PStep σ ε)) (k : Nat) (s : σ) :
    (runFrom str clock steps k s).results.map StepResult.name =
      (steps.map Prod.fst).take
        (runFrom str clock steps k s).results.length := by
  induction steps generalizing k s with
  | nil => simp [runFrom_nil]
  | cons hd tl ih =>
    obtain ⟨n, fn⟩ := hd
    rcases hfn : fn s with ⟨res, s1⟩
    cases res with
    | ok m =>
      rw [runFrom_cons_ok str clock n tl k hfn]
      simp [ih (k + 2) s1]
    | error e =>
      rw [runFrom_cons_err str clock n tl k hfn]
      simp

theorem runFrom_length_le (str : ε → String) (clock : Nat → Nat)
    (steps : List (PStep σ ε)) (k : Nat) (s : σ) :
    (runFrom str clock steps k s).results.length ≤ steps.length := by
  have h := runFrom_map_name_take str clock steps k s
  have h2 := congrArg List.length h
  simp only [List.length_map] at h2
  calc (runFrom str clock steps k s).results.length
      = _ := h2
    _ ≤ (steps.map Prod.fst).length := by
          rw [List.length_take]; exact min_le_right _ _
    _ = steps.length := List.length_map _ _

theorem runFrom_raised_findIdx (str : ε → String) (clock : Nat → Nat)
    (steps : List (PStep σ ε)) (k : Nat) (s : σ) (e : ε)
    (h : (runFrom str clock steps k s).raised = some e) :
    ((runFrom str clock steps k s).results.findIdx fun r => !r.ok) + 1 =
      (runFrom str clock steps k s).results.length := by
  induction steps generalizing k s with
  | nil => simp [runFrom_nil] at h
  | cons hd tl ih =>
    obtain ⟨n, fn⟩ := hd
    rcases hfn : fn s with ⟨res, s1⟩
    cases res with
    | ok m =>
      rw [runFrom_cons_ok str clock n tl k hfn] at h ⊢
      simp only at h
      simp only [List.findIdx_cons, Bool.not_true, cond_false,
        List.length_cons]
      rw [ih (k + 2) s1 h]
    | error e2 =>
      rw [runFrom_cons_err str clock n tl k hfn]
      simp [List.findIdx_cons]

theorem runFrom_fail_decomp (str : ε → String) (clock : Nat → Nat)
    (pre post : List (PStep σ ε)) (nb : String)
    (fbad : σ → Except ε String × σ) (k : Nat) (s : σ)
    (rpre : List StepResult) (k1 : Nat) (s1 s2 : σ) (e : ε)
    (hpre : runFrom str clock pre k s = ⟨rpre, none, k1, s1⟩)
    (hbad : fbad s1 = (Except.error e, s2)) :
    runFrom str clock (pre ++ (nb, fbad) :: post) k s =
      ⟨rpre ++ [⟨nb, false, str e, clock k1, clock (k1 + 1)⟩],
        some e, k1 + 2, s2⟩ := by
  have hcl : (runFrom str clock pre k s).raised = none := by rw [hpre]
  rw [runFrom_append_clean str clock pre ((nb, fbad) :: post) k s hcl, hpre]
  simp only
  rw [runFrom_cons_err str clock nb post k1 hbad]

theorem runFrom_ok_decomp (str : ε → String) (clock : Nat → Nat)
    (pre post : List (PStep σ ε)) (n : String)
    (f : σ → Except ε String × σ) (k : Nat) (s : σ)
    (rpre : List StepResult) (k1 : Nat) (s1 s2 : σ) (m : String)
    (hpre : runFrom str clock pre k s = ⟨rpre, none, k1, s1⟩)
    (hok : f s1 = (Except.ok m, s2)) :
    runFrom str clock (pre ++ (n, f) :: post) k s =
      ⟨rpre ++ ⟨n, true, m, clock k1, clock (k1 + 1)⟩ ::
          (runFrom str clock post (k1 + 2) s2).results,
        (runFrom str clock post (k1 + 2) s2).raised,
        (runFrom str clock post (k1 + 2) s2).tick,
        (runFrom str clock post (k1 + 2) s2).world⟩ := by
  have hcl : (runFrom str clock pre k s).raised = none := by rw [hpre]
  rw [runFrom_append_clean str clock pre ((n, f) :: post) k s hcl, hpre]
  simp only
  rw [runFrom_cons_ok str clock n post k1 hok]

theorem runFrom_allok_raised_none (str : ε → String) (clock : Nat → Nat)
    (steps : List (PStep σ ε))
    (hc : ∀ nf ∈ steps, ∃ m : String, ∀ s : σ, (nf.2 s).1 = Except.ok m) :
    ∀ (k : Nat) (s : σ), (runFrom str clock steps k s).raised = none := by
  revert hc
  induction steps with
  | nil => intro hc k s; simp [runFrom_nil]
  | cons hd tl ih =>
    intro hc k s
    obtain ⟨n, f⟩ := hd
    obtain ⟨m, hm⟩ := hc (n, f) (List.mem_cons_self _ _)
    rcases h1 : f s with ⟨r1, w1⟩
    have e1 : r1 = Except.ok m := by
      have h2 : (f s).1 = Except.ok m := hm s
      rw [h1] at h2; exact h2
    subst e1
    rw [runFrom_cons_ok str clock n tl k h1]
    exact ih (fun nf hnf => hc nf (List.mem_cons_of_mem _ hnf)) (k + 2) w1

theorem runFrom_stripTimes_const (str : ε → String) (clock : Nat → Nat)
    (steps : List (PStep σ ε))
    (hc : ∀ nf ∈ steps, ∃ m : String, ∀ s : σ, (nf.2 s).1 = Except.ok m) :
    ∀ (k1 : Nat) (s1 : σ) (k2 : Nat) (s2 : σ),
      stripTimes (runFrom str clock steps k1 s1).results =
        stripTimes (runFrom str clock steps k2 s2).results := by
  revert hc
  induction steps with
  | nil => intro hc k1 s1 k2 s2; simp [runFrom_nil]
  | cons hd tl ih =>
    intro hc k1 s1 k2 s2
    obtain ⟨n, f⟩ := hd
    obtain ⟨m, hm⟩ := hc (n, f) (List.mem_cons_self _ _)
    rcases h1 : f s1 with ⟨r1, w1⟩
    rcases h2 : f s2 with ⟨r2, w2⟩
    have e1 : r1 = Except.ok m := by
      have h3 : (f s1).1 = Except.ok m := hm s1
      rw [h1] at h3; exact h3
    have e2 : r2 = Except.ok m := by
      have h3 : (f s2).1 = Except.ok m := hm s2
      rw [h2] at h3; exact h3
    subst e1; subst e2
    rw [runFrom_cons_ok str clock n tl k1 h1,
      runFrom_cons_ok str clock n tl k2 h2]
    simp only [stripTimes, List.map_cons]
    have h4 := ih (fun nf hnf => hc nf (List.mem_cons_of_mem _ hnf))
      (k1 + 2) w1 (k2 + 2) w2
    simp only [stripTimes] at h4
    rw [h4]

/-- C2: for every registered step sequence in which no operation raises,
`run_pipeline` returns the recorded report; its length equals the number of
registered steps, its names are the registered names in registration order
(so the i-th entry carries the i-th registered name), every entry is marked
succeeded, and `started_at ≤ finished_at` holds for each entry under a
monotone clock. -/
theorem C2_success_report (str : ε → String) (clock : Nat → Nat)
    (p : ETLPipeline σ ε) (k : Nat) (s : σ) (hmono : Monotone clock)
    (hclean : (runFrom str clock p.pipeline_steps k s).raised = none) :
    (run_pipeline str clock p k s).1 =
      Except.ok (recordedReport str clock p k s) ∧
    (recordedReport str clock p k s).length = p.pipeline_steps.length ∧
    (recordedReport str clock p k s).map StepResult.name =
      p.pipeline_steps.map Prod.fst ∧
    ∀ r ∈ recordedReport str clock p k s,
      r.ok = true ∧ r.started_at ≤ r.finished_at := by
  refine ⟨?_, ?_, ?_, ?_⟩
  · simp [run_pipeline, recordedReport, hclean]
  · have h := congrArg List.length
      (runFrom_clean_map_name str clock p.pipeline_steps k s hclean)
    simpa [recordedReport] using h
  · exact runFrom_clean_map_name str clock p.pipeline_steps k s hclean
  · intro r hr
    refine ⟨runFrom_clean_all_ok str clock p.pipeline_steps k s hclean r hr, ?_⟩
    obtain ⟨j, hj1, hj2⟩ :=
      runFrom_timestamps str clock p.pipeline_steps k s r hr
    rw [hj1, hj2]
    exact hmono (Nat.le_succ j)

/-- C2 witness: the hypotheses of `C2_success_report` hold for the concrete
two-step all-success pipeline with the identity clock, and the theorem
yields the success and timestamp facts there. -/
theorem C2_success_report_witness :
    Monotone idClock ∧
    (runFrom idStr idClock demoSuccess.pipeline_steps 0 ()).raised = none ∧
    ∀ r ∈ recordedReport idStr idClock demoSuccess 0 (),
      r.ok = true ∧ r.started_at ≤ r.finished_at :=
  ⟨fun _ _ h => h, rfl,
    (C2_success_report idStr idClock demoSuccess 0 () (fun _ _ h => h)
      rfl).2.2.2⟩

/-- C4: on a runner with zero registered steps, `run_pipeline` returns the
empty report through the normal return path (no error is raised), leaves
the receiver unchanged and consumes no clock ticks. -/
theorem C4_empty_pipeline (str : ε → String) (clock : Nat → Nat)
    (nm : String) (k : Nat) (s : σ) :
    run_pipeline str clock (ETLPipeline.mk nm ([] : List (PStep σ ε))) k s =
      (Except.ok ([] : List StepResult), ETLPipeline.mk nm [], k, s) := rfl

/-- C8: registration is the only mutation of the step sequence:
`add_steps_to_pipeline` appends exactly the one `(name, fn)` pair and keeps
the name label, and `run_pipeline` leaves the receiver (its step sequence
and its name) unchanged whether it completes or fails. -/
theorem C8_state_frame (str : ε → String) (clock : Nat → Nat)
    (p : ETLPipeline σ ε) (n : String) (fn : σ → Except ε String × σ)
    (k : Nat) (s : σ) :
    (add_steps_to_pipeline p n fn).name = p.name ∧
    (add_steps_to_pipeline p n fn).pipeline_steps =
      p.pipeline_steps ++ [(n, fn)] ∧
    (run_pipeline str clock p k s).2.1 = p := by
  refine ⟨rfl, rfl, ?_⟩
  unfold run_pipeline
  cases h : (runFrom str clock p.pipeline_steps k s).raised <;> simp [h]

/-- C9: the name label does not affect behavior: two runners with the same
registered steps but possibly different names produce the same caller
outcome, record the same report (timestamps included, under the same clock)
and drive the world through the same effects. -/
theorem C9_name_label_irrelevant (str : ε → String) (clock : Nat → Nat)
    (p1 p2 : ETLPipeline σ ε) (k : Nat) (s : σ)
    (hsteps : p1.pipeline_steps = p2.pipeline_steps) :
    (run_pipeline str clock p1 k s).1 = (run_pipeline str clock p2 k s).1 ∧
    recordedReport str clock p1 k s = recordedReport str clock p2 k s ∧
    (run_pipeline str clock p1 k s).2.2 =
      (run_pipeline str clock p2 k s).2.2 := by
  unfold run_pipeline recordedReport
  rw [hsteps]
  cases h : (runFrom str clock p2.pipeline_steps k s).raised <;> simp [h]

/-- C9 witness: two concretely differently named runners with the same
steps give equal caller outcomes and equal recorded reports. -/
theorem C9_name_label_irrelevant_witness :
    (ETLPipeline.mk "x" demoSuccess.pipeline_steps).pipeline_steps =
      demoSuccess.pipeline_steps ∧
    recordedReport idStr idClock
        (ETLPipeline.mk "x" demoSuccess.pipeline_steps) 0 () =
      recordedReport idStr idClock demoSuccess 0 () :=
  ⟨rfl,
    (C9_name_label_irrelevant idStr idClock
      (ETLPipeline.mk "x" demoSuccess.pipeline_steps) demoSuccess 0 ()
      rfl).2.1⟩

/-- C3: when the steps before position k all succeed (recording `rpre`) and
the operation at position k raises `e`, the recorded report is exactly
`rpre` followed by one failed entry carrying `str e`: it has `|pre| + 1`
entries, the first `|pre|` all succeeded, the last failed with the raised
error's message. The equation's right-hand side does not mention `post`
and the final conjunct makes it explicit: the run is identical for every
choice of the later steps and its final world is the world right after the
failing call, so the operations after the failure are never invoked. -/
theorem C3_failfast_report (str : ε → String) (clock : Nat → Nat)
    (p : ETLPipeline σ ε) (pre post : List (PStep σ ε)) (nb : String)
    (fbad : σ → Except ε String × σ) (k : Nat) (s : σ)
    (rpre : List StepResult) (k1 : Nat) (s1 s2 : σ) (e : ε)
    (hsteps : p.pipeline_steps = pre ++ (nb, fbad) :: post)
    (hpre : runFrom str clock pre k s = ⟨rpre, none, k1, s1⟩)
    (hbad : fbad s1 = (Except.error e, s2)) :
    runFrom str clock p.pipeline_steps k s =
      ⟨rpre ++ [⟨nb, false, str e, clock k1, clock (k1 + 1)⟩],
        some e, k1 + 2, s2⟩ ∧
    rpre.length = pre.length ∧
    (∀ r ∈ rpre, r.ok = true) ∧
    ∀ post2 : List (PStep σ ε),
      runFrom str clock (pre ++ (nb, fbad) :: post2) k s =
        runFrom str clock p.pipeline_steps k s := by
  have hcl : (runFrom str clock pre k s).raised = none := by rw [hpre]
  have key : ∀ post2 : List (PStep σ ε),
      runFrom str clock (pre ++ (nb, fbad) :: post2) k s =
        ⟨rpre ++ [⟨nb, false, str e, clock k1, clock (k1 + 1)⟩],
          some e, k1 + 2, s2⟩ :=
    fun post2 =>
      runFrom_fail_decomp str clock pre post2 nb fbad k s rpre k1 s1 s2 e
        hpre hbad
  refine ⟨by rw [hsteps]; exact key post, ?_, ?_, ?_⟩
  · have h := congrArg List.length
      (runFrom_clean_map_name str clock pre k s hcl)
    rw [hpre] at h
    simpa using h
  · have h := runFrom_clean_all_ok str clock pre k s hcl
    rw [hpre] at h
    exact h
  · intro post2
    rw [hsteps, key post2, key post]

/-- C3 witness: on the spec's concrete scenario the recorded report is
exactly the succeeded entry for `a` and the failed entry for `b`, and the
operation of step `c` is never invoked. -/
theorem C3_failfast_report_witness :
    demoFail.pipeline_steps =
      [("a", opOk "ok-a")] ++ ("b", opFail "boom") :: [("c", opOk "ok-c")] ∧
    runFrom idStr idClock [("a", opOk "ok-a")] 0 () =
      ⟨[⟨"a", true, "ok-a", 0, 1⟩], none, 2, ()⟩ ∧
    opFail "boom" () = (Except.error "boom", ()) ∧
    runFrom idStr idClock demoFail.pipeline_steps 0 () =
      ⟨[⟨"a", true, "ok-a", 0, 1⟩, ⟨"b", false, "boom", 2, 3⟩],
        some "boom", 4, ()⟩ := by
  refine ⟨rfl, rfl, rfl, ?_⟩
  have h := C3_failfast_report idStr idClock demoFail [("a", opOk "ok-a")]
    [("c", opOk "ok-c")] "b" (opFail "boom") 0 ()
    [⟨"a", true, "ok-a", 0, 1⟩] 2 () () "boom" rfl rfl rfl
  exact h.1

/-- C10: the error that `run_pipeline` propagates on a failure is the very
value raised by the failing operation, unchanged: the caller-visible
outcome is `Except.error e` for the exact `e` the operation produced, not
a wrapped or runner-specific error. -/
theorem C10_original_error_propagated (str : ε → String) (clock : Nat → Nat)
    (p : ETLPipeline σ ε) (pre post : List (PStep σ ε)) (nb : String)
    (fbad : σ → Except ε String × σ) (k : Nat) (s : σ)
    (rpre : List StepResult) (k1 : Nat) (s1 s2 : σ) (e : ε)
    (hsteps : p.pipeline_steps = pre ++ (nb, fbad) :: post)
    (hpre : runFrom str clock pre k s = ⟨rpre, none, k1, s1⟩)
    (hbad : fbad s1 = (Except.error e, s2)) :
    (run_pipeline str clock p k s).1 = Except.error e := by
  unfold run_pipeline
  rw [hsteps, runFrom_fail_decomp str clock pre post nb fbad k s rpre k1 s1
    s2 e hpre hbad]

/-- C10 witness: on the spec's concrete scenario the propagated error is
exactly the raised "boom". -/
theorem C10_original_error_propagated_witness :
    opFail "boom" () = (Except.error "boom", ()) ∧
    (run_pipeline idStr idClock demoFail 0 ()).1 = Except.error "boom" :=
  ⟨rfl,
    C10_original_error_propagated idStr idClock demoFail
      [("a", opOk "ok-a")] [("c", opOk "ok-c")] "b" (opFail "boom") 0 ()
      [⟨"a", true, "ok-a", 0, 1⟩] 2 () () "boom" rfl rfl rfl⟩

/-- C5: message fidelity of the entry recorded for the step at position
`|pre|` (0-indexed), for any position reached with all earlier steps
succeeding: if the operation returns `m` the entry is succeeded with
message exactly `m`; if it raises `e` the entry is failed with message
exactly `str e` (the stringified error). -/
theorem C5_message_fidelity (str : ε → String) (clock : Nat → Nat)
    (p : ETLPipeline σ ε) (pre post : List (PStep σ ε)) (n : String)
    (f : σ → Except ε String × σ) (k : Nat) (s : σ)
    (rpre : List StepResult) (k1 : Nat) (s1 : σ)
    (hsteps : p.pipeline_steps = pre ++ (n, f) :: post)
    (hpre : runFrom str clock pre k s = ⟨rpre, none, k1, s1⟩) :
    (∀ (m : String) (s2 : σ), f s1 = (Except.ok m, s2) →
      (recordedReport str clock p k s)[rpre.length]? =
        some ⟨n, true, m, clock k1, clock (k1 + 1)⟩) ∧
    (∀ (e : ε) (s2 : σ), f s1 = (Except.error e, s2) →
      (recordedReport str clock p k s)[rpre.length]? =
        some ⟨n, false, str e, clock k1, clock (k1 + 1)⟩) := by
  constructor
  · intro m s2 hok
    unfold recordedReport
    rw [hsteps, runFrom_ok_decomp str clock pre post n f k s rpre k1 s1 s2
      m hpre hok]
    simp only
    rw [List.getElem?_append_right (Nat.le_refl rpre.length)]
    simp
  · intro e s2 hbad
    unfold recordedReport
    rw [hsteps, runFrom_fail_decomp str clock pre post n f k s rpre k1 s1
      s2 e hpre hbad]
    simp only
    rw [List.getElem?_append_right (Nat.le_refl rpre.length)]
    simp

/-- C5 witness: at position 1 of the spec's concrete failing scenario the
recorded entry carries exactly the stringified raised error "boom". -/
theorem C5_message_fidelity_witness :
    runFrom idStr idClock [("a", opOk "ok-a")] 0 () =
      ⟨[⟨"a", true, "ok-a", 0, 1⟩], none, 2, ()⟩ ∧
    opFail "boom" () = (Except.error "boom", ()) ∧
    (recordedReport idStr idClock demoFail 0 ())[1]? =
      some ⟨"b", false, "boom", 2, 3⟩ := by
  refine ⟨rfl, rfl, ?_⟩
  have h := (C5_message_fidelity idStr idClock demoFail
    [("a", opOk "ok-a")] [("c", opOk "ok-c")] "b" (opFail "boom") 0 ()
    [⟨"a", true, "ok-a", 0, 1⟩] 2 () rfl rfl).2 "boom" () rfl
  exact h

/-- C6: for every run, the recorded outcome names are the registered names
truncated to the report's length (so the outcome sequence is an initial
segment of the registration order), the report is never longer than the
step list, and whenever the run raised, the report's length equals the
index of its first failed entry plus one (the failure is the last entry
recorded). -/
theorem C6_truncation_invariant (str : ε → String) (clock : Nat → Nat)
    (p : ETLPipeline σ ε) (k : Nat) (s : σ) :
    (recordedReport str clock p k s).map StepResult.name =
      (p.pipeline_steps.map Prod.fst).take
        (recordedReport str clock p k s).length ∧
    (recordedReport str clock p k s).length ≤ p.pipeline_steps.length ∧
    ∀ e : ε, (runFrom str clock p.pipeline_steps k s).raised = some e →
      ((recordedReport str clock p k s).findIdx fun r => !r.ok) + 1 =
        (recordedReport str clock p k s).length :=
  ⟨runFrom_map_name_take str clock p.pipeline_steps k s,
    runFrom_length_le str clock p.pipeline_steps k s,
    fun e h => runFrom_raised_findIdx str clock p.pipeline_steps k s e h⟩

/-- C6 witness: on the spec's concrete failing scenario the report length
is 2 (at most 3 registered steps) and equals first-failure index 1 plus
one. -/
theorem C6_truncation_invariant_witness :
    (recordedReport idStr idClock demoFail 0 ()).length ≤
      demoFail.pipeline_steps.length ∧
    (runFrom idStr idClock demoFail.pipeline_steps 0 ()).raised =
      some "boom" ∧
    ((recordedReport idStr idClock demoFail 0 ()).findIdx
        fun r => !r.ok) + 1 =
      (recordedReport idStr idClock demoFail 0 ()).length :=
  ⟨(C6_truncation_invariant idStr idClock demoFail 0 ()).2.1, rfl,
    (C6_truncation_invariant idStr idClock demoFail 0 ()).2.2 "boom" rfl⟩

/-- C7: when every registered operation succeeds and returns the same
status string on every invocation, any two runs of the same runner —
in particular a second run started at the tick and world where the first
ended — record reports that are equal apart from timestamps, and each run
returns its report through the normal return path. In the embedding each
run builds its report from freshly constructed entries, so no state is
shared between the two reports. -/
theorem C7_rerun_reports_equal (str : ε → String) (clock : Nat → Nat)
    (p : ETLPipeline σ ε)
    (hconst : ∀ nf ∈ p.pipeline_steps,
      ∃ m : String, ∀ s : σ, (nf.2 s).1 = Except.ok m) :
    ∀ (k1 : Nat) (s1 : σ) (k2 : Nat) (s2 : σ),
      stripTimes (recordedReport str clock p k1 s1) =
        stripTimes (recordedReport str clock p k2 s2) ∧
      (run_pipeline str clock p k1 s1).1 =
        Except.ok (recordedReport str clock p k1 s1) := by
  intro k1 s1 k2 s2
  constructor
  · exact runFrom_stripTimes_const str clock p.pipeline_steps hconst
      k1 s1 k2 s2
  · have h := runFrom_allok_raised_none str clock p.pipeline_steps hconst
      k1 s1
    simp [run_pipeline, recordedReport, h]

/-- C7 witness: the two-step all-success pipeline run once from tick 0 and
again from tick 4 (where the first run ended) records reports equal apart
from timestamps. -/
theorem C7_rerun_reports_equal_witness :
    (∀ nf ∈ demoSuccess.pipeline_steps,
      ∃ m : String, ∀ s : Unit, (nf.2 s).1 = Except.ok m) ∧
    stripTimes (recordedReport idStr idClock demoSuccess 0 ()) =
      stripTimes (recordedReport idStr idClock demoSuccess 4 ()) := by
  have hc : ∀ nf ∈ demoSuccess.pipeline_steps,
      ∃ m : String, ∀ s : Unit, (nf.2 s).1 = Except.ok m := by
    intro nf hnf
    simp only [demoSuccess, List.mem_cons, List.not_mem_nil,
      or_false] at hnf
    rcases hnf with h | h
    · subst h; exact ⟨"ok-a", fun s => rfl⟩
    · subst h; exact ⟨"ok-b", fun s => rfl⟩
  exact ⟨hc, (C7_rerun_reports_equal idStr idClock demoSuccess hc
    0 () 4 ()).1⟩

/-- C1 counterexample: two concrete runners — one whose single step raises
"boom", one that first succeeds and then raises "boom" — propagate exactly
the same caller-visible outcome although their recorded partial reports
differ; hence no way of catching the propagated exception can recover the
history of steps performed, refuting the claim that the caller can
retrieve the history by catching it. -/
theorem C1_counterexample :
    (run_pipeline idStr idClock demoFail 0 ()).1 =
      (run_pipeline idStr idClock demoFailShort 0 ()).1 ∧
    recordedReport idStr idClock demoFail 0 () ≠
      recordedReport idStr idClock demoFailShort 0 () ∧
    ¬ ∃ g : Except String (List StepResult) → List StepResult,
        g (run_pipeline idStr idClock demoFail 0 ()).1 =
          recordedReport idStr idClock demoFail 0 () ∧
        g (run_pipeline idStr idClock demoFailShort 0 ()).1 =
          recordedReport idStr idClock demoFailShort 0 () := by
  refine ⟨rfl, by decide, ?_⟩
  rintro ⟨g, h1, h2⟩
  have heq : (run_pipeline idStr idClock demoFail 0 ()).1 =
      (run_pipeline idStr idClock demoFailShort 0 ()).1 := rfl
  rw [heq, h2] at h1
  exact absurd h1.symm (by decide)

/-- C1 (amended): when a step's operation raises, `run_pipeline` records
the failed step's outcome into the partial report before the failure
propagates, and what propagates is the operation's original error alone;
the partial report is a local of the method, is not carried by the
propagated error, and so is not retrievable by the caller. -/
theorem C1_partial_report_before_raise (str : ε → String)
    (clock : Nat → Nat)
    (p : ETLPipeline σ ε) (pre post : List (PStep σ ε)) (nb : String)
    (fbad : σ → Except ε String × σ) (k : Nat) (s : σ)
    (rpre : List StepResult) (k1 : Nat) (s1 s2 : σ) (e : ε)
    (hsteps : p.pipeline_steps = pre ++ (nb, fbad) :: post)
    (hpre : runFrom str clock pre k s = ⟨rpre, none, k1, s1⟩)
    (hbad : fbad s1 = (Except.error e, s2)) :
    recordedReport str clock p k s =
      rpre ++ [⟨nb, false, str e, clock k1, clock (k1 + 1)⟩] ∧
    (run_pipeline str clock p k s).1 = Except.error e := by
  have h := runFrom_fail_decomp str clock pre post nb fbad k s rpre k1 s1
    s2 e hpre hbad
  constructor
  · unfold recordedReport
    rw [hsteps, h]
  · unfold run_pipeline
    rw [hsteps, h]

/-- C1 witness: on the spec's concrete failing scenario the partial report
holds the succeeded entry for `a` and the failed entry for `b` while the
caller receives only the original error "boom". -/
theorem C1_partial_report_before_raise_witness :
    runFrom idStr idClock [("a", opOk "ok-a")] 0 () =
      ⟨[⟨"a", true, "ok-a", 0, 1⟩], none, 2, ()⟩ ∧
    recordedReport idStr idClock demoFail 0 () =
      [⟨"a", true, "ok-a", 0, 1⟩] ++ [⟨"b", false, "boom", 2, 3⟩] ∧
    (run_pipeline idStr idClock demoFail 0 ()).1 = Except.error "boom" := by
  have h := C1_partial_report_before_raise idStr idClock demoFail
    [("a", opOk "ok-a")] [("c", opOk "ok-c")] "b" (opFail "boom") 0 ()
    [⟨"a", true, "ok-a", 0, 1⟩] 2 () () "boom" rfl rfl rfl
  exact ⟨rfl, h.1, h.2⟩

end SnowflakeETL
